import Mathlib

/-!
Verification of `typescript-memoize` (BluMintInc fork), modelled from
`src/memoize-decorator.ts`.

Modelling conventions:
* JavaScript values are embedded as `JsVal` (pure structure; arrays and objects
  are encoded as cons-chains so that structural equality is derivable) paired
  with a `ref : Nat` identity in `RVal`.  Primitives compare by structure,
  objects/arrays by `ref` under JS SameValueZero; the injected deep-equality
  predicate (`fast-deep-equal`, an external collaborator per the spec) is
  modelled as structural equality on the `val` component.
* JS `Map` (insertion-ordered, SameValueZero keys) and the source's
  `DeepEqualMap` are both embedded as association lists parameterised by a key
  predicate; `Map.set` replaces the first matching entry in place,
  `DeepEqualMap.set` deletes the first matching entry and appends at the end,
  exactly as in the source (lines 85-97).
* `Date.now()` values are passed in explicitly (`now` at the staleness check,
  `nowStore` at the timestamp store; the source calls `Date.now()` twice).
* Thrown exceptions are modelled with `Except JsVal`.
-/

/-- Structural embedding of the JavaScript values the library manipulates.
Arrays are cons-chains `arrCons hd tl / arrNil`; objects are field-chains
`objCons key value tl / objNil` (field order is the construction order). -/
inductive JsVal where
  | str (s : String)
  | num (n : Int)
  | bool (b : Bool)
  | undef
  | arrNil
  | arrCons (hd : JsVal) (tl : JsVal)
  | objNil
  | objCons (k : String) (v : JsVal) (tl : JsVal)
deriving DecidableEq

/-- Sugar: a JS array value from a Lean list. -/
def JsVal.arr (xs : List JsVal) : JsVal := xs.foldr .arrCons .arrNil

/-- A runtime JS value: structure (`val`) plus object identity (`ref`).
For primitives the `ref` is irrelevant (conventionally 0). -/
structure RVal where
  ref : Nat
  val : JsVal
deriving DecidableEq

/-- Whether a structural value is a JS primitive (compared by value, never by
reference). -/
def JsVal.isPrim : JsVal → Bool
  | .arrNil => false
  | .arrCons _ _ => false
  | .objNil => false
  | .objCons _ _ _ => false
  | _ => true

/-- The injected deep-equality predicate (`fast-deep-equal`): structural
equality, ignoring object identity. -/
def deepEq (a b : RVal) : Bool := decide (a.val = b.val)

/-- JS SameValueZero, the key equality of a standard `Map`: primitives by
value, objects/arrays by reference identity. -/
def sameValueZero (a b : RVal) : Bool :=
  if a.val.isPrim || b.val.isPrim then decide (a.val = b.val)
  else decide (a.ref = b.ref)

/-! ## Association-list embedding of the two store kinds

`aHas`/`aGet` are the shared scan (`DeepEqualMap.has`/`get`, lines 65-83, and
JS `Map.has`/`get`); both return the first entry whose key matches under the
given predicate, comparing `eq storedKey candidateKey` in that argument order,
as `equal(entry.key, key)` does in the source. -/

def aHas (eq : RVal → RVal → Bool) (es : List (RVal × RVal)) (k : RVal) : Bool :=
  es.any fun e => eq e.1 k

def aGet (eq : RVal → RVal → Bool) (es : List (RVal × RVal)) (k : RVal) :
    Option RVal :=
  (es.find? fun e => eq e.1 k).map (·.2)

/-- Drop the first entry whose key matches `k` (the `delete`+`break` loop of
`DeepEqualMap.set`, lines 86-92). -/
def removeFirst (eq : RVal → RVal → Bool) (es : List (RVal × RVal)) (k : RVal) :
    List (RVal × RVal) :=
  match es with
  | [] => []
  | e :: rest => if eq e.1 k then rest else e :: removeFirst eq rest k

/-- `DeepEqualMap.set` (lines 85-97): remove the first structurally matching
entry, then insert the new entry at the end (a fresh serialized key is appended
to the insertion-ordered backing map). -/
def dSet (eq : RVal → RVal → Bool) (es : List (RVal × RVal)) (k v : RVal) :
    List (RVal × RVal) :=
  removeFirst eq es k ++ [(k, v)]

/-- JS `Map.set`: replace the value of the first matching entry in place
(keeping the originally stored key and its position), else append. -/
def mSet (eq : RVal → RVal → Bool) (es : List (RVal × RVal)) (k v : RVal) :
    List (RVal × RVal) :=
  match es with
  | [] => [(k, v)]
  | e :: rest => if eq e.1 k then (e.1, v) :: rest else e :: mSet eq rest k v

/-! ## Tag registry (`clearCacheTagsMap`, line 43, and `clear`, lines 45-59)

A registered entry is a *wrapper*: `wid` is the JS object identity of what was
pushed into `clearCacheTagsMap` (the shallow-mode `myMap` itself, or the fresh
`mapWrapper` built per tag per call in deep mode, lines 134-136), and
`storeId` identifies the underlying per-instance store that its `clear()`
empties.  For a shallow-mode registration the pushed object *is* the store, so
`wid = storeId`. -/

structure Wrapper where
  wid : Nat
  storeId : Nat
deriving DecidableEq

/-- The global `clearCacheTagsMap`: tag string to its list of registered
wrappers, in registration order. -/
abbrev Registry := List (String × List Wrapper)

def regLookup (reg : Registry) (tag : String) : Option (List Wrapper) :=
  (reg.find? fun e => e.1 == tag).map (·.2)

/-- One registration step (lines 138-142 / 195-199): push onto the tag's
existing list, or create a singleton list for a new tag. -/
def regPush (reg : Registry) (tag : String) (w : Wrapper) : Registry :=
  match reg with
  | [] => [(tag, [w])]
  | e :: rest =>
      if e.1 == tag then (e.1, e.2 ++ [w]) :: rest else e :: regPush rest tag w

/-- Shallow-mode tag registration (lines 193-201): the store itself (`myMap`)
is pushed under every declared tag, on every call. -/
def registerShallowTags (tags : List String) (storeId : Nat) (reg : Registry) :
    Registry :=
  tags.foldl (fun r tag => regPush r tag ⟨storeId, storeId⟩) reg

/-- Deep-mode tag registration (lines 130-144): a *fresh* wrapper object around
the store's `clear` is created per tag, on every call; `wid0` is the next
unused object identity, and the updated counter is returned. -/
def registerDeepTags (tags : List String) (storeId : Nat) (reg : Registry)
    (wid0 : Nat) : Registry × Nat :=
  tags.foldl (fun (p : Registry × Nat) tag =>
    (regPush p.1 tag ⟨p.2, storeId⟩, p.2 + 1)) (reg, wid0)

/-- One tag's contribution to `clear` (lines 47-57): walk the tag's wrappers in
order and clear-and-collect each wrapper not already in the `cleared` set
(membership by object identity `wid`). -/
def clearStep (reg : Registry) (cleared : List Wrapper) (tag : String) :
    List Wrapper :=
  match regLookup reg tag with
  | none => cleared
  | some ws =>
      ws.foldl (fun acc w =>
        if acc.any fun c => c.wid == w.wid then acc else acc ++ [w]) cleared

/-- `clear(tags)` (lines 45-59): returns `cleared.size` together with the list
of cleared wrappers in clearing order (the side effect is `w.clear()` once per
collected wrapper). -/
def clearTags (reg : Registry) (tags : List String) : Nat × List Wrapper :=
  let cleared := tags.foldl (clearStep reg) []
  (cleared.length, cleared)

/-- Effect of an invocation of `clear` on a store with identity `sid`: emptied
exactly when some cleared wrapper targets it. -/
def storeAfterClear (cleared : List Wrapper) (sid : Nat)
    (entries : List (RVal × RVal)) : List (RVal × RVal) :=
  if cleared.any fun w => w.storeId == sid then [] else entries

/-! ## Configuration (`MemoizeArgs` and the `Memoize` entry point, lines 3-34) -/

/-- The `hashFunction` option: the literal `true`, a custom function
(receiving the calling instance and the argument list, possibly throwing), or
absent.  A literal `false` is falsy in every use site (`=== true` and the
truthiness tests), so it behaves as absent and is likewise modelled `noFn`. -/
inductive HashCfg where
  | useAll
  | fn (f : RVal → List RVal → Except JsVal RVal)
  | noFn

/-- Truthiness of the `hashFunction` option (`if (hashFunction || …)`). -/
def HashCfg.truthy : HashCfg → Bool
  | .useAll => true
  | .fn _ => true
  | .noFn => false

/-- The argument accepted by `Memoize` (line 10): nothing, a bare
function/`true` shorthand, or an options object. -/
inductive MemoizeArg where
  | noArg
  | fnArg (hf : HashCfg)
  | objArg (hashFunction : HashCfg) (expiring : Option Nat)
      (tags : Option (List String)) (useDeepEqual : Option Bool)

/-- The configuration handed to `getNewFunction` (lines 11-27): `duration`
defaults to `0` (the parameter default, line 107) and `useDeepEqual` to
`false` (lines 14 and 20). -/
structure Resolved where
  hf : HashCfg
  duration : Nat
  tags : Option (List String)
  useDeepEqual : Bool

/-- Argument parsing of `Memoize` (lines 10-23): an options object contributes
its fields with `useDeepEqual ?? false`; anything else is the `hashFunction`
shorthand (leaving `useDeepEqual` at its initial `false`). -/
def resolveMemoize : MemoizeArg → Resolved
  | .noArg => ⟨.noFn, 0, none, false⟩
  | .fnArg hf => ⟨hf, 0, none, false⟩
  | .objArg hf exp tags deep => ⟨hf, exp.getD 0, tags, deep.getD false⟩

/-! ## Key derivation -/

/-- JS `toString`/template-literal conversion for the values we model (used by
the shallow use-all-arguments key, line 208, and the shallow timestamp key,
line 215).  Arrays and objects are approximated by their JS default renderings;
no claim exercises those cases. -/
def jsToString : JsVal → String
  | .str s => s
  | .num n => toString n
  | .bool b => if b then "true" else "false"
  | .undef => "undefined"
  | .arrNil => ""
  | .arrCons _ _ => "[array]"
  | .objNil => "[object Object]"
  | .objCons _ _ _ => "[object Object]"

/-- Deep-mode key derivation (lines 146-157): use-all gives the (fresh) `args`
array; a custom function is applied to the instance and arguments; otherwise
the sole argument when there is exactly one, the `args` array when there are
two or more, and the instance `this` when there are none. -/
def deriveDeepKey (hf : HashCfg) (self : RVal) (args : List RVal) :
    Except JsVal RVal :=
  match hf with
  | .useAll => .ok ⟨0, .arr (args.map (·.val))⟩
  | .fn f => f self args
  | .noFn =>
      .ok (match args with
        | [] => self
        | [a] => a
        | _ => ⟨0, .arr (args.map (·.val))⟩)

/-- Shallow-mode keyed-branch key derivation (lines 203-213): use-all joins the
stringified arguments with `!`; a custom function is applied; otherwise the key
is `args[0]` (which is `undefined` when no arguments were passed). -/
def deriveShallowKeyedKey (hf : HashCfg) (self : RVal) (args : List RVal) :
    Except JsVal RVal :=
  match hf with
  | .useAll =>
      .ok ⟨0, .str (String.intercalate "!" (args.map fun a => jsToString a.val))⟩
  | .fn f => f self args
  | .noFn => .ok (args.headD ⟨0, .undef⟩)

/-- The shallow-mode derived key for the whole dispatch: the keyed branch is
taken iff `hashFunction || args.length > 0 || duration > 0` (line 203),
otherwise the key is the instance itself (line 238). -/
def deriveShallowKey (hf : HashCfg) (duration : Nat) (self : RVal)
    (args : List RVal) : Except JsVal RVal :=
  if hf.truthy || args.length > 0 || duration > 0 then
    deriveShallowKeyedKey hf self args
  else .ok self

/-! ## Expiration (lines 160-170 deep, 215-225 shallow) -/

/-- The deep-mode timestamp key `{ __timestamp: true, key: hashKey }`
(line 160); a fresh object, compared structurally. -/
def tsKeyDeep (hashKey : RVal) : RVal :=
  ⟨0, .objCons "__timestamp" (.bool true) (.objCons "key" hashKey.val .objNil)⟩

/-- The shallow-mode timestamp key `` `${hashKey}__timestamp` `` (line 215); a
fresh string, compared by value. -/
def tsKeyShallow (hashKey : RVal) : RVal :=
  ⟨0, .str (jsToString hashKey.val ++ "__timestamp")⟩

/-- Staleness test shared by both modes, on the given store with the given
mode's equality and timestamp key: with no expiration window the entry is
never stale; with a window, a missing timestamp record is stale, and a
recorded timestamp `t` is stale exactly when `now - t > duration`.  A
non-numeric record makes the JS comparison `NaN > duration`, i.e. `false`. -/
def isExpired (eq : RVal → RVal → Bool) (tsKey : RVal)
    (store : List (RVal × RVal)) (duration : Nat) (now : Int) : Bool :=
  if duration > 0 then
    match aGet eq store tsKey with
    | none => true
    | some tv =>
        match tv.val with
        | .num t => decide (now - t > (duration : Int))
        | _ => false
  else false

/-! ## The memoized call (`getNewFunction`'s returned closure, lines 115-249) -/

/-- Mutable state touched by one memoized member on one instance: the two
lazily created per-instance stores (`propDeepMapName` / `propMapName`; absent
is modelled as empty), the global tag registry, and the supply of fresh object
identities for deep-mode wrappers. -/
structure MemoState where
  deepStore : List (RVal × RVal)
  shalStore : List (RVal × RVal)
  reg : Registry
  nextWid : Nat

/-- Result of one call: the returned value or propagated exception, the state
afterwards, and whether `originalMethod` was invoked. -/
structure CallResult where
  ret : Except JsVal RVal
  state : MemoState
  invoked : Bool

/-- Tag registration, performed at the start of every call in the configured
mode's branch (lines 130-144 deep, 193-201 shallow); `sid` is the object
identity of this member+instance's store in that mode.  Only the registry (and
in deep mode the fresh-identity supply) changes. -/
def afterRegistration (cfg : Resolved) (sid : Nat) (st : MemoState) : MemoState :=
  if cfg.useDeepEqual then
    match cfg.tags with
    | some ts =>
        let p := registerDeepTags ts sid st.reg st.nextWid
        { st with reg := p.1, nextWid := p.2 }
    | none => st
  else
    match cfg.tags with
    | some ts => { st with reg := registerShallowTags ts sid st.reg }
    | none => st

/-- The deep-equality branch after registration (lines 146-180). -/
def deepBranch (cfg : Resolved) (orig : RVal → List RVal → Except JsVal RVal)
    (self : RVal) (args : List RVal) (now nowStore : Int) (st1 : MemoState) :
    CallResult :=
  match deriveDeepKey cfg.hf self args with
  | .error e => ⟨.error e, st1, false⟩
  | .ok hashKey =>
      if aHas deepEq st1.deepStore hashKey &&
          !(isExpired deepEq (tsKeyDeep hashKey) st1.deepStore cfg.duration now) then
        ⟨.ok ((aGet deepEq st1.deepStore hashKey).getD ⟨0, .undef⟩), st1, false⟩
      else
        match orig self args with
        | .error e => ⟨.error e, st1, true⟩
        | .ok v =>
            ⟨.ok v,
              { st1 with deepStore :=
                  (if cfg.duration > 0 then
                    dSet deepEq (dSet deepEq st1.deepStore hashKey v)
                      (tsKeyDeep hashKey) (⟨0, .num nowStore⟩ : RVal)
                  else dSet deepEq st1.deepStore hashKey v) },
              true⟩

/-- The shallow keyed branch after registration (lines 203-236), taken when
`hashFunction || args.length > 0 || duration > 0`. -/
def shallowKeyedBranch (cfg : Resolved)
    (orig : RVal → List RVal → Except JsVal RVal) (self : RVal)
    (args : List RVal) (now nowStore : Int) (st1 : MemoState) : CallResult :=
  match deriveShallowKeyedKey cfg.hf self args with
  | .error e => ⟨.error e, st1, false⟩
  | .ok hashKey =>
      if aHas sameValueZero st1.shalStore hashKey &&
          !(isExpired sameValueZero (tsKeyShallow hashKey) st1.shalStore
              cfg.duration now) then
        ⟨.ok ((aGet sameValueZero st1.shalStore hashKey).getD ⟨0, .undef⟩), st1,
          false⟩
      else
        match orig self args with
        | .error e => ⟨.error e, st1, true⟩
        | .ok v =>
            ⟨.ok v,
              { st1 with shalStore :=
                  (if cfg.duration > 0 then
                    mSet sameValueZero (mSet sameValueZero st1.shalStore hashKey v)
                      (tsKeyShallow hashKey) (⟨0, .num nowStore⟩ : RVal)
                  else mSet sameValueZero st1.shalStore hashKey v) },
              true⟩

/-- The parameter-less unconfigured shallow branch (lines 237-245): the key is
`this` and there is no expiration bookkeeping. -/
def shallowSelfBranch (orig : RVal → List RVal → Except JsVal RVal)
    (self : RVal) (args : List RVal) (st1 : MemoState) : CallResult :=
  if aHas sameValueZero st1.shalStore self then
    ⟨.ok ((aGet sameValueZero st1.shalStore self).getD ⟨0, .undef⟩), st1, false⟩
  else
    match orig self args with
    | .error e => ⟨.error e, st1, true⟩
    | .ok v =>
        ⟨.ok v,
          { st1 with shalStore := mSet sameValueZero st1.shalStore self v },
          true⟩

/-- One call of the wrapped member (lines 115-249).  `sid` is the object
identity of the store this member+instance uses in the configured mode;
`orig` is `originalMethod` (receiving `this` and the arguments, possibly
throwing); `now` is `Date.now()` at the staleness check and `nowStore` at the
timestamp store. -/
def memoizedCall (cfg : Resolved) (sid : Nat)
    (orig : RVal → List RVal → Except JsVal RVal) (self : RVal)
    (args : List RVal) (now nowStore : Int) (st : MemoState) : CallResult :=
  let st1 := afterRegistration cfg sid st
  if cfg.useDeepEqual then deepBranch cfg orig self args now nowStore st1
  else if cfg.hf.truthy || args.length > 0 || cfg.duration > 0 then
    shallowKeyedBranch cfg orig self args now nowStore st1
  else shallowSelfBranch orig self args st1

/-! ## Remaining definitions used by the statements -/

/-- A fresh per-instance state: neither store created yet (modelled empty),
empty global registry, and an arbitrary starting supply of fresh wrapper
identities. -/
def initState : MemoState := ⟨[], [], [], 100⟩

/-- The underlying logic of the spec's concrete scenario member
`getGreeting(greeting, planet) = greeting + ', ' + planet`. -/
def greetOrig : RVal → List RVal → Except JsVal RVal := fun _ args =>
  match args with
  | [⟨_, .str g⟩, ⟨_, .str p⟩] => .ok ⟨0, .str (g ++ ", " ++ p)⟩
  | _ => .ok ⟨0, .undef⟩

/-- The deep store reached by a sequence of `DeepEqualMap.set` operations,
starting from the freshly created empty map. -/
def dStoreOf (ops : List (RVal × RVal)) : List (RVal × RVal) :=
  ops.foldl (fun es kv => dSet deepEq es kv.1 kv.2) []

/-- No two entries of the store have matching keys under `eq` (the shape a
`DeepEqualMap` always has, since `set` replaces matching keys). -/
def NodupKeys (eq : RVal → RVal → Bool) (es : List (RVal × RVal)) : Prop :=
  es.Pairwise fun a b => eq a.1 b.1 = false

/-! ## Helper lemmas about the two equality predicates -/

theorem deepEq_true_iff {a b : RVal} : deepEq a b = true ↔ a.val = b.val := by
  simp [deepEq]

theorem deepEq_false_iff {a b : RVal} : deepEq a b = false ↔ ¬a.val = b.val := by
  simp [deepEq]

theorem deepEq_refl (a : RVal) : deepEq a a = true := by simp [deepEq]

theorem deepEq_no_common {k k' : RVal} (h : deepEq k' k = false) :
    ∀ x : RVal, deepEq x k' = true → deepEq x k = false := by
  intro x h1
  rw [deepEq_false_iff] at h ⊢
  rw [deepEq_true_iff] at h1
  exact fun hx => h (h1.symm.trans hx)

theorem svz_true_iff {a b : RVal} : sameValueZero a b = true ↔
    ((a.val.isPrim = true ∧ a.val = b.val) ∨
      (a.val.isPrim = false ∧ b.val.isPrim = false ∧ a.ref = b.ref)) := by
  unfold sameValueZero
  by_cases hp : (a.val.isPrim || b.val.isPrim) = true
  · simp only [hp, if_true, decide_eq_true_eq]
    constructor
    · intro h
      rcases Bool.or_eq_true_iff.mp hp with ha | hb
      · exact Or.inl ⟨ha, h⟩
      · exact Or.inl ⟨h ▸ hb, h⟩
    · rintro (⟨_, h⟩ | ⟨ha, hb, _⟩)
      · exact h
      · simp [ha, hb] at hp
  · obtain ⟨ha, hb⟩ := Bool.or_eq_false_iff.mp (Bool.eq_false_iff.mpr hp)
    rw [if_neg hp]
    simp only [decide_eq_true_eq]
    constructor
    · intro h; exact Or.inr ⟨ha, hb, h⟩
    · rintro (⟨ha', _⟩ | ⟨_, _, h⟩)
      · simp [ha] at ha'
      · exact h

theorem svz_refl (a : RVal) : sameValueZero a a = true := by
  unfold sameValueZero
  split <;> simp

theorem svz_no_common {k k' : RVal} (h : sameValueZero k' k = false) :
    ∀ x : RVal, sameValueZero x k' = true → sameValueZero x k = false := by
  intro x h1
  rw [Bool.eq_false_iff] at h ⊢
  intro h2
  apply h
  rw [svz_true_iff] at h1 h2 ⊢
  rcases h1 with ⟨hx, hv1⟩ | ⟨hx, hk', hr1⟩
  · rcases h2 with ⟨_, hv2⟩ | ⟨hx', _, _⟩
    · exact Or.inl ⟨hv1 ▸ hx, hv1.symm.trans hv2⟩
    · rw [hx] at hx'; exact absurd hx' (by simp)
  · rcases h2 with ⟨hx', _⟩ | ⟨_, hk, hr2⟩
    · rw [hx] at hx'; exact absurd hx' (by simp)
    · exact Or.inr ⟨hk', hk, hr1.symm.trans hr2⟩

/-! ## Helper lemmas about the store operations -/

theorem aHas_mSet_self (eq : RVal → RVal → Bool) (es : List (RVal × RVal))
    (k v : RVal) (h : eq k k = true) : aHas eq (mSet eq es k v) k = true := by
  induction es with
  | nil => simp [mSet, aHas, h]
  | cons e rest ih =>
      by_cases he : eq e.1 k = true
      · simp [mSet, he, aHas]
      · rw [Bool.not_eq_true] at he
        simp [mSet, he, aHas] at ih ⊢
        exact ih

theorem aGet_mSet_self (eq : RVal → RVal → Bool) (es : List (RVal × RVal))
    (k v : RVal) (h : eq k k = true) : aGet eq (mSet eq es k v) k = some v := by
  induction es with
  | nil => simp [mSet, aGet, List.find?, h]
  | cons e rest ih =>
      by_cases he : eq e.1 k = true
      · simp [mSet, he, aGet, List.find?, if_pos he]
      · rw [Bool.not_eq_true] at he
        simp only [mSet, he, if_false, Bool.false_eq_true, aGet, List.find?,
          he] at ih ⊢
        exact ih

theorem aGet_mSet_other (eq : RVal → RVal → Bool) (es : List (RVal × RVal))
    (k k' v' : RVal) (hrefl : eq k' k' = true)
    (hd : ∀ x, eq x k' = true → eq x k = false) :
    aGet eq (mSet eq es k' v') k = aGet eq es k := by
  induction es with
  | nil => simp [mSet, aGet, List.find?, hd k' hrefl]
  | cons e rest ih =>
      by_cases he : eq e.1 k' = true
      · have hek : eq e.1 k = false := hd e.1 he
        simp [mSet, he, aGet, List.find?, hek]
      · rw [Bool.not_eq_true] at he
        by_cases hek : eq e.1 k = true
        · simp [mSet, he, aGet, List.find?, hek]
        · rw [Bool.not_eq_true] at hek
          simp only [mSet, he, if_false, Bool.false_eq_true, aGet,
            List.find?, hek] at ih ⊢
          exact ih

theorem aGet_append_single_miss (eq : RVal → RVal → Bool)
    (l : List (RVal × RVal)) (p : RVal × RVal) (k : RVal)
    (h : eq p.1 k = false) : aGet eq (l ++ [p]) k = aGet eq l k := by
  induction l with
  | nil => simp [aGet, List.find?, h]
  | cons e rest ih =>
      by_cases he : eq e.1 k = true
      · simp [aGet, List.find?, he]
      · rw [Bool.not_eq_true] at he
        simp only [aGet, List.cons_append, List.find?, he] at ih ⊢
        exact ih

theorem aGet_append_single_hit (eq : RVal → RVal → Bool)
    (l : List (RVal × RVal)) (p : RVal × RVal) (k : RVal)
    (hall : ∀ e ∈ l, eq e.1 k = false) (hp : eq p.1 k = true) :
    aGet eq (l ++ [p]) k = some p.2 := by
  induction l with
  | nil => simp [aGet, List.find?, hp]
  | cons e rest ih =>
      have he := hall e (by simp)
      simp only [aGet, List.cons_append, List.find?, he] at ih ⊢
      exact ih fun x hx => hall x (by simp [hx])

theorem find?_removeFirst_other (eq : RVal → RVal → Bool)
    (es : List (RVal × RVal)) (k k' : RVal)
    (hd : ∀ x, eq x k' = true → eq x k = false) :
    aGet eq (removeFirst eq es k') k = aGet eq es k := by
  induction es with
  | nil => rfl
  | cons e rest ih =>
      by_cases he : eq e.1 k' = true
      · have hek : eq e.1 k = false := hd e.1 he
        simp [removeFirst, he, aGet, List.find?, hek]
      · rw [Bool.not_eq_true] at he
        by_cases hek : eq e.1 k = true
        · simp [removeFirst, he, aGet, List.find?, hek]
        · rw [Bool.not_eq_true] at hek
          simp only [removeFirst, he, if_false, Bool.false_eq_true, aGet,
            List.find?, hek] at ih ⊢
          exact ih

theorem aGet_dSet_other (eq : RVal → RVal → Bool) (es : List (RVal × RVal))
    (k k' v' : RVal) (hrefl : eq k' k' = true)
    (hd : ∀ x, eq x k' = true → eq x k = false) :
    aGet eq (dSet eq es k' v') k = aGet eq es k := by
  rw [dSet, aGet_append_single_miss eq _ _ _ (hd k' hrefl),
    find?_removeFirst_other eq es k k' hd]

theorem aHas_dSet_self (eq : RVal → RVal → Bool) (es : List (RVal × RVal))
    (k v : RVal) (h : eq k k = true) : aHas eq (dSet eq es k v) k = true := by
  simp [dSet, aHas, List.any_append, h]

theorem removeFirst_sublist (eq : RVal → RVal → Bool)
    (es : List (RVal × RVal)) (k : RVal) :
    (removeFirst eq es k).Sublist es := by
  induction es with
  | nil => simp [removeFirst]
  | cons e rest ih =>
      by_cases he : eq e.1 k = true
      · simp only [removeFirst, he, if_true]
        exact List.Sublist.cons e (List.Sublist.refl rest)
      · rw [Bool.not_eq_true] at he
        simp only [removeFirst, he, if_false, Bool.false_eq_true]
        exact List.Sublist.cons₂ e ih

/-! ## Helper lemmas about `DeepEqualMap` key uniqueness -/

theorem removeFirst_no_match (es : List (RVal × RVal)) (k : RVal)
    (hnd : NodupKeys deepEq es) :
    ∀ e ∈ removeFirst deepEq es k, deepEq e.1 k = false := by
  induction es with
  | nil => simp [removeFirst]
  | cons a rest ih =>
      rw [NodupKeys, List.pairwise_cons] at hnd
      obtain ⟨ha, hrest⟩ := hnd
      intro e he
      by_cases hak : deepEq a.1 k = true
      · simp only [removeFirst, hak, if_true] at he
        rw [Bool.eq_false_iff]
        intro hek
        have : deepEq a.1 e.1 = true := by
          rw [deepEq_true_iff] at hak hek ⊢
          exact hak.trans hek.symm
        rw [ha e he] at this
        exact absurd this (by simp)
      · rw [Bool.not_eq_true] at hak
        simp only [removeFirst, hak, if_false, Bool.false_eq_true,
          List.mem_cons] at he
        rcases he with rfl | he
        · exact hak
        · exact ih hrest e he

theorem mem_removeFirst_of_no_match (eq : RVal → RVal → Bool)
    (es : List (RVal × RVal)) (k' : RVal) (e : RVal × RVal) (hmem : e ∈ es)
    (hno : eq e.1 k' = false) : e ∈ removeFirst eq es k' := by
  induction es with
  | nil => simp at hmem
  | cons a rest ih =>
      rw [List.mem_cons] at hmem
      by_cases ha : eq a.1 k' = true
      · simp only [removeFirst, ha, if_true]
        rcases hmem with rfl | hmem
        · rw [ha] at hno; exact absurd hno (by simp)
        · exact hmem
      · rw [Bool.not_eq_true] at ha
        simp only [removeFirst, ha, if_false, Bool.false_eq_true,
          List.mem_cons]
        rcases hmem with rfl | hmem
        · exact Or.inl rfl
        · exact Or.inr (ih hmem)

theorem nodup_dSet (es : List (RVal × RVal)) (k v : RVal)
    (hnd : NodupKeys deepEq es) : NodupKeys deepEq (dSet deepEq es k v) := by
  rw [NodupKeys, dSet, List.pairwise_append]
  refine ⟨hnd.sublist (removeFirst_sublist deepEq es k), by simp, ?_⟩
  intro a ha b hb
  rw [List.mem_singleton] at hb
  subst hb
  exact removeFirst_no_match es k hnd a ha

theorem aGet_dSet_self (es : List (RVal × RVal)) (k v : RVal)
    (hnd : NodupKeys deepEq es) :
    aGet deepEq (dSet deepEq es k v) k = some v := by
  rw [dSet]
  exact aGet_append_single_hit deepEq _ (k, v) k
    (removeFirst_no_match es k hnd) (deepEq_refl k)

theorem exists_match_dSet_self (es : List (RVal × RVal)) (k v : RVal) :
    ∃ e ∈ dSet deepEq es k v, deepEq e.1 k = true :=
  ⟨(k, v), by simp [dSet], deepEq_refl k⟩

theorem exists_match_dSet_keep (es : List (RVal × RVal)) (k k' v' : RVal)
    (h : ∃ e ∈ es, deepEq e.1 k = true) :
    ∃ e ∈ dSet deepEq es k' v', deepEq e.1 k = true := by
  by_cases hk : deepEq k' k = true
  · exact ⟨(k', v'), by simp [dSet], hk⟩
  · rw [Bool.not_eq_true] at hk
    obtain ⟨e, hmem, he⟩ := h
    have hno : deepEq e.1 k' = false := by
      rw [Bool.eq_false_iff]
      intro hek'
      have : deepEq k' k = true := by
        rw [deepEq_true_iff] at he hek' ⊢
        exact hek'.symm.trans he
      rw [hk] at this
      exact absurd this (by simp)
    exact ⟨e, by simp [dSet, List.mem_append,
      mem_removeFirst_of_no_match deepEq es k' e hmem hno], he⟩

theorem filter_match_length_le_one (es : List (RVal × RVal)) (k : RVal)
    (hnd : NodupKeys deepEq es) :
    (es.filter fun e => deepEq e.1 k).length ≤ 1 := by
  induction es with
  | nil => simp
  | cons a rest ih =>
      rw [NodupKeys, List.pairwise_cons] at hnd
      obtain ⟨ha, hrest⟩ := hnd
      by_cases hak : deepEq a.1 k = true
      · have : (rest.filter fun e => deepEq e.1 k) = [] := by
          rw [List.filter_eq_nil_iff]
          intro e he
          rw [Bool.not_eq_true, Bool.eq_false_iff]
          intro hek
          have : deepEq a.1 e.1 = true := by
            rw [deepEq_true_iff] at hak hek ⊢
            exact hak.trans hek.symm
          rw [ha e he] at this
          exact absurd this (by simp)
        simp [List.filter_cons, hak, this]
      · rw [Bool.not_eq_true] at hak
        simp only [List.filter_cons, hak]
        exact ih hrest

theorem nodup_dStore_fold (ops : List (RVal × RVal)) :
    ∀ es, NodupKeys deepEq es →
      NodupKeys deepEq (ops.foldl (fun es kv => dSet deepEq es kv.1 kv.2) es) := by
  induction ops with
  | nil => intro es h; exact h
  | cons op rest ih =>
      intro es h
      exact ih _ (nodup_dSet es op.1 op.2 h)

theorem exists_match_fold_keep (ops : List (RVal × RVal)) :
    ∀ es k, (∃ e ∈ es, deepEq e.1 k = true) →
      ∃ e ∈ ops.foldl (fun es kv => dSet deepEq es kv.1 kv.2) es,
        deepEq e.1 k = true := by
  induction ops with
  | nil => intro es k h; exact h
  | cons op rest ih =>
      intro es k h
      exact ih _ k (exists_match_dSet_keep es k op.1 op.2 h)

theorem exists_match_fold_of_mem (ops : List (RVal × RVal)) :
    ∀ es kv, kv ∈ ops →
      ∃ e ∈ ops.foldl (fun es kv => dSet deepEq es kv.1 kv.2) es,
        deepEq e.1 kv.1 = true := by
  induction ops with
  | nil => intro es kv h; simp at h
  | cons op rest ih =>
      intro es kv h
      rw [List.mem_cons] at h
      rcases h with rfl | h
      · exact exists_match_fold_keep rest _ kv.1
          (exists_match_dSet_self es kv.1 kv.2)
      · exact ih _ kv h

/-- C9 (confirmed): in the deep-equality store, storing under a key that
structurally matches an already-stored key removes the old entry before
inserting the new one, so after every sequence of `set` operations no two
entries match structurally, and each key that was stored matches exactly one
entry (last-write-wins replacement, never duplication). -/
theorem deepEqualMap_unique_per_shape (ops : List (RVal × RVal)) :
    NodupKeys deepEq (dStoreOf ops) ∧
    ∀ kv ∈ ops, ((dStoreOf ops).filter fun e => deepEq e.1 kv.1).length = 1 := by
  have hnd : NodupKeys deepEq (dStoreOf ops) := by
    simp only [dStoreOf]
    exact nodup_dStore_fold ops [] (by simp [NodupKeys])
  refine ⟨hnd, ?_⟩
  intro kv hkv
  have hle := filter_match_length_le_one (dStoreOf ops) kv.1 hnd
  have hex : ∃ e ∈ dStoreOf ops, deepEq e.1 kv.1 = true := by
    simp only [dStoreOf]
    exact exists_match_fold_of_mem ops [] kv hkv
  obtain ⟨e, hmem, he⟩ := hex
  have hmemf : e ∈ (dStoreOf ops).filter fun e => deepEq e.1 kv.1 :=
    List.mem_filter.mpr ⟨hmem, he⟩
  have hge : 0 < ((dStoreOf ops).filter fun e => deepEq e.1 kv.1).length :=
    List.length_pos.mpr (List.ne_nil_of_mem hmemf)
  omega

/-- Witness for C9: two structurally-equal, reference-distinct keys stored in
sequence leave exactly one matching entry. -/
theorem deepEqualMap_unique_per_shape_witness :
    ((dStoreOf [(⟨0, .str "a"⟩, ⟨0, .num 1⟩), (⟨1, .str "a"⟩, ⟨0, .num 2⟩)]).filter
      fun e => deepEq e.1 (⟨0, .str "a"⟩ : RVal)).length = 1 :=
  (deepEqualMap_unique_per_shape
    [(⟨0, .str "a"⟩, ⟨0, .num 1⟩), (⟨1, .str "a"⟩, ⟨0, .num 2⟩)]).2
    (⟨0, .str "a"⟩, ⟨0, .num 1⟩) (by simp)

/-- C2 (counterexample): in deep-equality mode with no custom key-derivation
function, a zero-argument call derives the receiver instance itself as the key
(not the empty argument list), and a one-argument call derives the lone
argument (not the full argument list), refuting the claim's key description at
these concrete inputs. -/
theorem deep_default_key_counterexample :
    deriveDeepKey .noFn ⟨7, .objNil⟩ [] = .ok ⟨7, .objNil⟩ ∧
    (⟨7, .objNil⟩ : RVal) ≠ ⟨0, .arr []⟩ ∧
    deriveDeepKey .noFn ⟨7, .objNil⟩ [⟨3, .str "x"⟩] = .ok ⟨3, .str "x"⟩ ∧
    (⟨3, .str "x"⟩ : RVal).val ≠ JsVal.arr [.str "x"] := by
  refine ⟨rfl, by decide, rfl, by decide⟩

/-- C2 (amended, proved): in deep-equality mode with no custom key-derivation
function the derived key is the full argument list only when there are at
least two arguments; with exactly one argument it is that argument alone, and
with zero arguments it is the receiver instance. -/
theorem deep_default_key_amended (self a b : RVal) (rest : List RVal) :
    deriveDeepKey .noFn self [] = .ok self ∧
    deriveDeepKey .noFn self [a] = .ok a ∧
    deriveDeepKey .noFn self (a :: b :: rest) =
      .ok ⟨0, .arr ((a :: b :: rest).map (·.val))⟩ :=
  ⟨rfl, rfl, rfl⟩

/-- C6 (counterexample): for a shallow-mode member with no custom key function
and no use-all-arguments flag but a positive expiration window (e.g.
`MemoizeExpiring(100)`), a zero-argument call derives `undefined` (`args[0]` of
the empty list) as the key, not the calling instance, refuting the claim's
zero-argument case. -/
theorem shallow_zero_arg_key_counterexample :
    deriveShallowKey .noFn 100 ⟨5, .objNil⟩ [] = .ok ⟨0, .undef⟩ ∧
    (⟨0, .undef⟩ : RVal) ≠ ⟨5, .objNil⟩ :=
  ⟨rfl, by decide⟩

/-- C6 (amended, proved): for a shallow-mode member with no custom key function
and no use-all-arguments flag, the derived key is the first argument whenever
at least one argument is passed (so a second call holding the first argument
constant while varying the rest never re-invokes the underlying logic, shown
here without an expiration window), and with zero arguments the key is the
calling instance itself only when no expiration window is configured,
otherwise it is `undefined`. -/
theorem shallow_default_key_amended (self a v : RVal) (rest r1 r2 : List RVal)
    (d sid : Nat) (n1 n2 n3 n4 : Int) (st : MemoState) :
    deriveShallowKey .noFn d self (a :: rest) = .ok a ∧
    deriveShallowKey .noFn 0 self [] = .ok self ∧
    deriveShallowKey .noFn (d + 1) self [] = .ok ⟨0, .undef⟩ ∧
    ((memoizedCall ⟨.noFn, 0, none, false⟩ sid (fun _ _ => .ok v) self
        (a :: r2) n3 n4
        (memoizedCall ⟨.noFn, 0, none, false⟩ sid (fun _ _ => .ok v) self
          (a :: r1) n1 n2 st).state).invoked = false ∧
      (memoizedCall ⟨.noFn, 0, none, false⟩ sid (fun _ _ => .ok v) self
        (a :: r2) n3 n4
        (memoizedCall ⟨.noFn, 0, none, false⟩ sid (fun _ _ => .ok v) self
          (a :: r1) n1 n2 st).state).ret =
      (memoizedCall ⟨.noFn, 0, none, false⟩ sid (fun _ _ => .ok v) self
        (a :: r1) n1 n2 st).ret) := by
  refine ⟨?_, rfl, ?_, ?_⟩
  · simp [deriveShallowKey, deriveShallowKeyedKey, HashCfg.truthy]
  · simp [deriveShallowKey, deriveShallowKeyedKey, HashCfg.truthy]
  · by_cases hhit : aHas sameValueZero st.shalStore a = true
    · simp [memoizedCall, afterRegistration, shallowKeyedBranch,
        deriveShallowKeyedKey, isExpired, HashCfg.truthy, hhit]
    · rw [Bool.not_eq_true] at hhit
      simp [memoizedCall, afterRegistration, shallowKeyedBranch,
        deriveShallowKeyedKey, isExpired, HashCfg.truthy, hhit,
        aHas_mSet_self sameValueZero st.shalStore a v (svz_refl a),
        aGet_mSet_self sameValueZero st.shalStore a v (svz_refl a)]

/-- C1 (code_bug evidence): with no options, `Memoize()` resolves
`useDeepEqual` to `false`, so `getGreeting` is keyed by its first argument
only: after `getGreeting('Hola','Mundo')`, the call `getGreeting('Hola','Mars')`
is a cache hit that returns `'Hola, Mundo'` without invoking the underlying
logic — contrary to the repository's own test and README, which promise deep
full-argument keying by default (two invocations and `'Hola, Mars'`). -/
theorem default_config_shallow_first_arg_keying :
    (resolveMemoize .noArg).useDeepEqual = false ∧
    (memoizedCall (resolveMemoize .noArg) 10 greetOrig ⟨1, .objNil⟩
      [⟨0, .str "Hola"⟩, ⟨0, .str "Mundo"⟩] 0 0 initState).ret =
      .ok ⟨0, .str "Hola, Mundo"⟩ ∧
    (memoizedCall (resolveMemoize .noArg) 10 greetOrig ⟨1, .objNil⟩
      [⟨0, .str "Hola"⟩, ⟨0, .str "Mars"⟩] 0 0
      (memoizedCall (resolveMemoize .noArg) 10 greetOrig ⟨1, .objNil⟩
        [⟨0, .str "Hola"⟩, ⟨0, .str "Mundo"⟩] 0 0 initState).state).ret =
      .ok ⟨0, .str "Hola, Mundo"⟩ ∧
    (memoizedCall (resolveMemoize .noArg) 10 greetOrig ⟨1, .objNil⟩
      [⟨0, .str "Hola"⟩, ⟨0, .str "Mars"⟩] 0 0
      (memoizedCall (resolveMemoize .noArg) 10 greetOrig ⟨1, .objNil⟩
        [⟨0, .str "Hola"⟩, ⟨0, .str "Mundo"⟩] 0 0 initState).state).invoked =
      false :=
  ⟨rfl, rfl, rfl, rfl⟩

/-! ## Helper lemmas about `clear` -/

theorem clear_inner_mem (ws : List Wrapper) :
    ∀ acc w, w ∈ ws.foldl (fun acc w =>
        if acc.any fun c => c.wid == w.wid then acc else acc ++ [w]) acc →
      w ∈ acc ∨ w ∈ ws := by
  induction ws with
  | nil => intro acc w h; exact Or.inl h
  | cons w0 rest ih =>
      intro acc w h
      rw [List.foldl_cons] at h
      rcases ih _ w h with hstep | hrest
      · by_cases hin : (acc.any fun c => c.wid == w0.wid) = true
        · rw [if_pos hin] at hstep
          exact Or.inl hstep
        · rw [if_neg hin, List.mem_append, List.mem_singleton] at hstep
          rcases hstep with h' | rfl
          · exact Or.inl h'
          · exact Or.inr (by simp)
      · exact Or.inr (by simp [hrest])

theorem clear_outer_mem (reg : Registry) (ts : List String) :
    ∀ acc w, w ∈ ts.foldl (clearStep reg) acc →
      w ∈ acc ∨ ∃ t ∈ ts, ∃ ws, regLookup reg t = some ws ∧ w ∈ ws := by
  induction ts with
  | nil => intro acc w h; exact Or.inl h
  | cons t rest ih =>
      intro acc w h
      rw [List.foldl_cons] at h
      rcases ih _ w h with hstep | ⟨t', ht', ws, hws, hw⟩
      · unfold clearStep at hstep
        rcases hlk : regLookup reg t with _ | ws
        · rw [hlk] at hstep
          exact Or.inl hstep
        · rw [hlk] at hstep
          rcases clear_inner_mem ws acc w hstep with h' | h'
          · exact Or.inl h'
          · exact Or.inr ⟨t, by simp, ws, hlk, h'⟩
      · exact Or.inr ⟨t', by simp [ht'], ws, hws, hw⟩

theorem clear_inner_nodup (ws : List Wrapper) :
    ∀ acc : List Wrapper, (acc.map Wrapper.wid).Nodup →
      ((ws.foldl (fun acc w =>
          if acc.any fun c => c.wid == w.wid then acc else acc ++ [w])
        acc).map Wrapper.wid).Nodup := by
  induction ws with
  | nil => intro acc h; exact h
  | cons w0 rest ih =>
      intro acc h
      rw [List.foldl_cons]
      apply ih
      by_cases hin : (acc.any fun c => c.wid == w0.wid) = true
      · rw [if_pos hin]; exact h
      · rw [if_neg hin, List.map_append, List.map_singleton]
        rw [List.nodup_append]
        refine ⟨h, by simp, ?_⟩
        intro x hx
        rw [List.mem_map] at hx
        obtain ⟨c, hc, rfl⟩ := hx
        simp only [List.mem_singleton]
        intro hcontra
        exact hin (List.any_eq_true.mpr ⟨c, hc, by simp [hcontra]⟩)

theorem clear_outer_nodup (reg : Registry) (ts : List String) :
    ∀ acc : List Wrapper, (acc.map Wrapper.wid).Nodup →
      ((ts.foldl (clearStep reg) acc).map Wrapper.wid).Nodup := by
  induction ts with
  | nil => intro acc h; exact h
  | cons t rest ih =>
      intro acc h
      rw [List.foldl_cons]
      apply ih
      unfold clearStep
      rcases hlk : regLookup reg t with _ | ws
      · exact h
      · exact clear_inner_nodup ws acc h

/-- C3 (counterexample): a deep-equality member tagged `["foo"]` registers a
fresh wrapper on every call, so after two calls `clear(["foo"])` returns `2`
even though only one distinct underlying store (id 10) was cleared — and that
store is cleared twice in the same invocation — refuting both the returned
count and the at-most-once clearing at this concrete input. -/
theorem clear_count_counterexample :
    (clearTags ((memoizedCall ⟨.noFn, 0, some ["foo"], true⟩ 10
        (fun _ _ => .ok ⟨0, .num 1⟩) ⟨1, .objNil⟩ [⟨0, .str "b"⟩] 0 0
        (memoizedCall ⟨.noFn, 0, some ["foo"], true⟩ 10
          (fun _ _ => .ok ⟨0, .num 1⟩) ⟨1, .objNil⟩ [⟨0, .str "a"⟩] 0 0
          initState).state).state).reg ["foo"]).1 = 2 ∧
    ((clearTags ((memoizedCall ⟨.noFn, 0, some ["foo"], true⟩ 10
        (fun _ _ => .ok ⟨0, .num 1⟩) ⟨1, .objNil⟩ [⟨0, .str "b"⟩] 0 0
        (memoizedCall ⟨.noFn, 0, some ["foo"], true⟩ 10
          (fun _ _ => .ok ⟨0, .num 1⟩) ⟨1, .objNil⟩ [⟨0, .str "a"⟩] 0 0
          initState).state).state).reg ["foo"]).2.map Wrapper.storeId) =
      [10, 10] ∧
    (((clearTags ((memoizedCall ⟨.noFn, 0, some ["foo"], true⟩ 10
        (fun _ _ => .ok ⟨0, .num 1⟩) ⟨1, .objNil⟩ [⟨0, .str "b"⟩] 0 0
        (memoizedCall ⟨.noFn, 0, some ["foo"], true⟩ 10
          (fun _ _ => .ok ⟨0, .num 1⟩) ⟨1, .objNil⟩ [⟨0, .str "a"⟩] 0 0
          initState).state).state).reg
        ["foo"]).2.map Wrapper.storeId).dedup.length) = 1 :=
  ⟨rfl, rfl, rfl⟩

/-- C3 (amended, proved): `clear` returns the number of distinct *registered
store references* (wrappers) cleared, clearing each registered reference at
most once per invocation; only references registered under some tag in the
input list are cleared (hence an empty or all-unknown tag list clears nothing
and returns zero, and a store whose registered references all live under other
tags is left unchanged).  Because deep-mode members register a fresh wrapper
per call, this count can exceed the number of distinct underlying stores. -/
theorem clearTags_spec (reg : Registry) (tags : List String) :
    (clearTags reg tags).1 = (clearTags reg tags).2.length ∧
    ((clearTags reg tags).2.map Wrapper.wid).Nodup ∧
    (∀ w ∈ (clearTags reg tags).2, ∃ tag ∈ tags, ∃ ws,
        regLookup reg tag = some ws ∧ w ∈ ws) ∧
    clearTags reg [] = (0, []) ∧
    ((∀ tag ∈ tags, regLookup reg tag = none) → clearTags reg tags = (0, [])) ∧
    (∀ sid entries, (∀ tag ∈ tags, ∀ ws, regLookup reg tag = some ws →
        ∀ w ∈ ws, w.storeId ≠ sid) →
      storeAfterClear (clearTags reg tags).2 sid entries = entries) := by
  have hmem : ∀ w ∈ (clearTags reg tags).2, ∃ tag ∈ tags, ∃ ws,
      regLookup reg tag = some ws ∧ w ∈ ws := by
    intro w hw
    rcases clear_outer_mem reg tags [] w hw with h | h
    · simp at h
    · exact h
  refine ⟨rfl, clear_outer_nodup reg tags [] (by simp), hmem, rfl, ?_, ?_⟩
  · intro hunknown
    have hnil : List.foldl (clearStep reg) [] tags = [] := by
      rw [List.eq_nil_iff_forall_not_mem]
      intro w hw
      obtain ⟨tag, htag, ws, hws, _⟩ := hmem w (by simpa [clearTags] using hw)
      rw [hunknown tag htag] at hws
      exact Option.noConfusion hws
    have hdef : clearTags reg tags =
        ((List.foldl (clearStep reg) [] tags).length,
          List.foldl (clearStep reg) [] tags) := rfl
    rw [hdef, hnil]
    rfl
  · intro sid entries hother
    rw [storeAfterClear, if_neg]
    rw [Bool.not_eq_true, List.any_eq_false]
    intro w hw
    obtain ⟨tag, htag, ws, hws, hwmem⟩ := hmem w hw
    rw [beq_iff_eq]
    exact hother tag htag ws hws w hwmem

/-- Witness for C3: on a concrete registry, clearing an unknown tag returns
zero and clears nothing, and clearing `"foo"` leaves the store registered only
under `"bar"` unchanged. -/
theorem clearTags_spec_witness :
    clearTags [("foo", [⟨1, 10⟩]), ("bar", [⟨2, 20⟩])] ["baz"] = (0, []) ∧
    storeAfterClear
      (clearTags [("foo", [⟨1, 10⟩]), ("bar", [⟨2, 20⟩])] ["foo"]).2 20
      [(⟨0, .str "k"⟩, ⟨0, .num 1⟩)] = [(⟨0, .str "k"⟩, ⟨0, .num 1⟩)] := by
  constructor
  · refine (clearTags_spec [("foo", [⟨1, 10⟩]), ("bar", [⟨2, 20⟩])]
      ["baz"]).2.2.2.2.1 ?_
    intro tag htag
    rw [List.mem_singleton] at htag
    subst htag
    rfl
  · refine (clearTags_spec [("foo", [⟨1, 10⟩]), ("bar", [⟨2, 20⟩])]
      ["foo"]).2.2.2.2.2 20 [(⟨0, .str "k"⟩, ⟨0, .num 1⟩)] ?_
    intro tag htag ws hws w hwmem
    rw [List.mem_singleton] at htag
    subst htag
    have heq : ([⟨1, 10⟩] : List Wrapper) = ws :=
      Option.some.inj ((rfl :
        regLookup [("foo", [⟨1, 10⟩]), ("bar", [⟨2, 20⟩])] "foo" =
          some [⟨1, 10⟩]).symm.trans hws)
    subst heq
    rw [List.mem_singleton] at hwmem
    subst hwmem
    decide

/-! ## Helper lemmas about the call branches -/

theorem afterRegistration_stores (cfg : Resolved) (sid : Nat) (st : MemoState) :
    (afterRegistration cfg sid st).deepStore = st.deepStore ∧
    (afterRegistration cfg sid st).shalStore = st.shalStore := by
  unfold afterRegistration
  rcases cfg.useDeepEqual <;> rcases cfg.tags <;> simp

theorem deepBranch_pres (cfg : Resolved)
    (orig : RVal → List RVal → Except JsVal RVal) (self : RVal)
    (args : List RVal) (now ns : Int) (st1 : MemoState) :
    (deepBranch cfg orig self args now ns st1).state.reg = st1.reg ∧
    (deepBranch cfg orig self args now ns st1).state.shalStore =
      st1.shalStore ∧
    (deepBranch cfg orig self args now ns st1).state.nextWid = st1.nextWid := by
  rcases hk : deriveDeepKey cfg.hf self args with e | k
  · simp [deepBranch, hk]
  · by_cases hc : (aHas deepEq st1.deepStore k &&
        !(isExpired deepEq (tsKeyDeep k) st1.deepStore cfg.duration now)) = true
    · simp [deepBranch, hk, hc]
    · rw [Bool.not_eq_true] at hc
      rcases ho : orig self args with e | v
      · simp [deepBranch, hk, hc, ho]
      · simp [deepBranch, hk, hc, ho]

theorem shallowKeyedBranch_pres (cfg : Resolved)
    (orig : RVal → List RVal → Except JsVal RVal) (self : RVal)
    (args : List RVal) (now ns : Int) (st1 : MemoState) :
    (shallowKeyedBranch cfg orig self args now ns st1).state.reg = st1.reg ∧
    (shallowKeyedBranch cfg orig self args now ns st1).state.deepStore =
      st1.deepStore ∧
    (shallowKeyedBranch cfg orig self args now ns st1).state.nextWid =
      st1.nextWid := by
  rcases hk : deriveShallowKeyedKey cfg.hf self args with e | k
  · simp [shallowKeyedBranch, hk]
  · by_cases hc : (aHas sameValueZero st1.shalStore k &&
        !(isExpired sameValueZero (tsKeyShallow k) st1.shalStore cfg.duration
            now)) = true
    · simp [shallowKeyedBranch, hk, hc]
    · rw [Bool.not_eq_true] at hc
      rcases ho : orig self args with e | v
      · simp [shallowKeyedBranch, hk, hc, ho]
      · simp [shallowKeyedBranch, hk, hc, ho]

theorem shallowSelfBranch_pres
    (orig : RVal → List RVal → Except JsVal RVal) (self : RVal)
    (args : List RVal) (st1 : MemoState) :
    (shallowSelfBranch orig self args st1).state.reg = st1.reg ∧
    (shallowSelfBranch orig self args st1).state.deepStore = st1.deepStore ∧
    (shallowSelfBranch orig self args st1).state.nextWid = st1.nextWid := by
  by_cases hc : aHas sameValueZero st1.shalStore self = true
  · simp [shallowSelfBranch, hc]
  · rw [Bool.not_eq_true] at hc
    rcases ho : orig self args with e | v
    · simp [shallowSelfBranch, hc, ho]
    · simp [shallowSelfBranch, hc, ho]

theorem deepBranch_err (cfg : Resolved)
    (orig : RVal → List RVal → Except JsVal RVal) (self : RVal)
    (args : List RVal) (now ns : Int) (st1 : MemoState) (e : JsVal)
    (h : (deepBranch cfg orig self args now ns st1).ret = .error e) :
    (deepBranch cfg orig self args now ns st1).state = st1 := by
  rcases hk : deriveDeepKey cfg.hf self args with e' | k
  · simp [deepBranch, hk]
  · by_cases hc : (aHas deepEq st1.deepStore k &&
        !(isExpired deepEq (tsKeyDeep k) st1.deepStore cfg.duration now)) = true
    · simp [deepBranch, hk, hc] at h
    · rw [Bool.not_eq_true] at hc
      rcases ho : orig self args with e' | v
      · simp [deepBranch, hk, hc, ho]
      · simp [deepBranch, hk, hc, ho] at h

theorem shallowKeyedBranch_err (cfg : Resolved)
    (orig : RVal → List RVal → Except JsVal RVal) (self : RVal)
    (args : List RVal) (now ns : Int) (st1 : MemoState) (e : JsVal)
    (h : (shallowKeyedBranch cfg orig self args now ns st1).ret = .error e) :
    (shallowKeyedBranch cfg orig self args now ns st1).state = st1 := by
  rcases hk : deriveShallowKeyedKey cfg.hf self args with e' | k
  · simp [shallowKeyedBranch, hk]
  · by_cases hc : (aHas sameValueZero st1.shalStore k &&
        !(isExpired sameValueZero (tsKeyShallow k) st1.shalStore cfg.duration
            now)) = true
    · simp [shallowKeyedBranch, hk, hc] at h
    · rw [Bool.not_eq_true] at hc
      rcases ho : orig self args with e' | v
      · simp [shallowKeyedBranch, hk, hc, ho]
      · simp [shallowKeyedBranch, hk, hc, ho] at h

theorem shallowSelfBranch_err
    (orig : RVal → List RVal → Except JsVal RVal) (self : RVal)
    (args : List RVal) (st1 : MemoState) (e : JsVal)
    (h : (shallowSelfBranch orig self args st1).ret = .error e) :
    (shallowSelfBranch orig self args st1).state = st1 := by
  by_cases hc : aHas sameValueZero st1.shalStore self = true
  · simp [shallowSelfBranch, hc] at h
  · rw [Bool.not_eq_true] at hc
    rcases ho : orig self args with e' | v
    · simp [shallowSelfBranch, hc, ho]
    · simp [shallowSelfBranch, hc, ho] at h

/-- C4 (counterexample): a shallow-mode member tagged `["foo"]` pushes its
store reference into the registry on *every* call, so after two calls on the
same instance the same store reference appears twice under `"foo"`, refuting
registration exactly once per (member, instance, equality-mode) and the
at-most-once appearance invariant. -/
theorem register_duplicate_counterexample :
    ((regLookup ((memoizedCall ⟨.noFn, 0, some ["foo"], false⟩ 10
        (fun _ _ => .ok ⟨0, .num 1⟩) ⟨1, .objNil⟩ [⟨0, .str "a"⟩] 0 0
        (memoizedCall ⟨.noFn, 0, some ["foo"], false⟩ 10
          (fun _ _ => .ok ⟨0, .num 1⟩) ⟨1, .objNil⟩ [⟨0, .str "a"⟩] 0 0
          initState).state).state).reg "foo").getD []).count ⟨10, 10⟩ = 2 :=
  rfl

/-- C4 (amended, proved): tag registration happens on every call, not once:
each call of a tagged member appends, under every declared tag, the store
reference itself (shallow mode) or a fresh wrapper around the store (deep
mode) to the registry, so a store's references under a tag accumulate once per
call; `clear` deduplicates by reference only at invalidation time. -/
theorem registration_per_call_amended (hf : HashCfg) (d sid : Nat)
    (ts : List String) (orig : RVal → List RVal → Except JsVal RVal)
    (self : RVal) (args : List RVal) (now nowStore : Int) (st : MemoState) :
    (memoizedCall ⟨hf, d, some ts, false⟩ sid orig self args now nowStore
        st).state.reg = registerShallowTags ts sid st.reg ∧
    (memoizedCall ⟨hf, d, some ts, true⟩ sid orig self args now nowStore
        st).state.reg = (registerDeepTags ts sid st.reg st.nextWid).1 ∧
    (∀ reg tag w, regLookup (regPush reg tag w) tag =
      some ((regLookup reg tag).getD [] ++ [w])) := by
  refine ⟨?_, ?_, ?_⟩
  · have hcall : memoizedCall ⟨hf, d, some ts, false⟩ sid orig self args now
        nowStore st =
        (if hf.truthy || args.length > 0 || d > 0 then
          shallowKeyedBranch ⟨hf, d, some ts, false⟩ orig self args now
            nowStore { st with reg := registerShallowTags ts sid st.reg }
        else shallowSelfBranch orig self args
            { st with reg := registerShallowTags ts sid st.reg }) := rfl
    rw [hcall]
    split
    · exact (shallowKeyedBranch_pres _ _ _ _ _ _ _).1
    · exact (shallowSelfBranch_pres _ _ _ _).1
  · have hcall : memoizedCall ⟨hf, d, some ts, true⟩ sid orig self args now
        nowStore st =
        deepBranch ⟨hf, d, some ts, true⟩ orig self args now nowStore
          { st with
            reg := (registerDeepTags ts sid st.reg st.nextWid).1
            nextWid := (registerDeepTags ts sid st.reg st.nextWid).2 } := rfl
    rw [hcall]
    exact (deepBranch_pres _ _ _ _ _ _ _).1
  · intro reg tag w
    induction reg with
    | nil => simp [regPush, regLookup, List.find?]
    | cons e rest ih =>
        by_cases he : (e.1 == tag) = true
        · simp [regPush, he, regLookup, List.find?]
        · rw [Bool.not_eq_true] at he
          simp only [regPush, he, if_false, Bool.false_eq_true, regLookup,
            List.find?, he] at ih ⊢
          exact ih

/-- C7 (confirmed): whenever a memoized call propagates an exception — from
the custom key-derivation function or from the underlying computation — the
exception reaches the caller unmodified and both cache stores are exactly as
before the call: nothing is stored, no timestamp is recorded, failed
computations are never memoized. -/
theorem error_propagation_no_caching :
    (∀ cfg sid orig self args now ns st e st' b,
      memoizedCall cfg sid orig self args now ns st = ⟨.error e, st', b⟩ →
      st'.deepStore = st.deepStore ∧ st'.shalStore = st.shalStore) ∧
    (∀ (deepFlag : Bool) d tags sid orig self args now ns st (e : JsVal),
      (memoizedCall ⟨.fn fun _ _ => .error e, d, tags, deepFlag⟩ sid orig self
        args now ns st).ret = .error e) ∧
    (∀ (deepFlag : Bool) d tags sid self args now ns reg w (e : JsVal),
      (memoizedCall ⟨.noFn, d, tags, deepFlag⟩ sid (fun _ _ => .error e) self
        args now ns ⟨[], [], reg, w⟩).ret = .error e ∧
      (memoizedCall ⟨.noFn, d, tags, deepFlag⟩ sid (fun _ _ => .error e) self
        args now ns ⟨[], [], reg, w⟩).invoked = true) := by
  refine ⟨?_, ?_, ?_⟩
  · intro cfg sid orig self args now ns st e st' b h
    have hpres := afterRegistration_stores cfg sid st
    have hdisp : memoizedCall cfg sid orig self args now ns st =
        (if cfg.useDeepEqual then
          deepBranch cfg orig self args now ns (afterRegistration cfg sid st)
        else if cfg.hf.truthy || args.length > 0 || cfg.duration > 0 then
          shallowKeyedBranch cfg orig self args now ns
            (afterRegistration cfg sid st)
        else shallowSelfBranch orig self args
            (afterRegistration cfg sid st)) := rfl
    rw [hdisp] at h
    split at h
    · have hret : (deepBranch cfg orig self args now ns
          (afterRegistration cfg sid st)).ret = .error e := by rw [h]
      have hstate := deepBranch_err cfg orig self args now ns _ e hret
      have hst' : st' = afterRegistration cfg sid st :=
        (congrArg CallResult.state h).symm.trans hstate
      rw [hst']
      exact hpres
    · split at h
      · have hret : (shallowKeyedBranch cfg orig self args now ns
            (afterRegistration cfg sid st)).ret = .error e := by rw [h]
        have hstate := shallowKeyedBranch_err cfg orig self args now ns _ e hret
        have hst' : st' = afterRegistration cfg sid st :=
          (congrArg CallResult.state h).symm.trans hstate
        rw [hst']
        exact hpres
      · have hret : (shallowSelfBranch orig self args
            (afterRegistration cfg sid st)).ret = .error e := by rw [h]
        have hstate := shallowSelfBranch_err orig self args _ e hret
        have hst' : st' = afterRegistration cfg sid st :=
          (congrArg CallResult.state h).symm.trans hstate
        rw [hst']
        exact hpres
  · intro deepFlag d tags sid orig self args now ns st e
    rcases deepFlag <;> rfl
  · intro deepFlag d tags sid self args now ns reg w e
    rcases deepFlag <;> rcases tags with _ | ts <;>
      rcases args with _ | ⟨a, _ | ⟨b, t⟩⟩ <;> rcases d with _ | d' <;>
      first
        | exact ⟨rfl, rfl⟩
        | (constructor <;>
            simp [memoizedCall, shallowKeyedBranch, afterRegistration,
              deriveShallowKeyedKey, aHas, isExpired, HashCfg.truthy])

/-- Witness for C7: concrete throwing key function and throwing underlying
computation, with the stores observably unchanged. -/
theorem error_propagation_no_caching_witness :
    ((memoizedCall ⟨.fn fun _ _ => .error (.str "boom"), 0, none, false⟩ 0
      (fun _ _ => .ok ⟨0, .num 1⟩) ⟨1, .objNil⟩ [] 0 0 initState).ret =
      .error (.str "boom")) ∧
    ((memoizedCall ⟨.noFn, 0, none, true⟩ 0 (fun _ _ => .error (.str "bang"))
      ⟨1, .objNil⟩ [] 0 0 ⟨[], [], [], 5⟩).ret = .error (.str "bang")) ∧
    (initState.deepStore = initState.deepStore ∧
      initState.shalStore = initState.shalStore) := by
  refine ⟨?_, ?_, ?_⟩
  · exact error_propagation_no_caching.2.1 false 0 none 0
      (fun _ _ => .ok ⟨0, .num 1⟩) ⟨1, .objNil⟩ [] 0 0 initState (.str "boom")
  · exact (error_propagation_no_caching.2.2 true 0 none 0 ⟨1, .objNil⟩ [] 0 0
      [] 5 (.str "bang")).1
  · exact error_propagation_no_caching.1
      ⟨.fn fun _ _ => .error (.str "boom"), 0, none, false⟩ 0
      (fun _ _ => .ok ⟨0, .num 1⟩) ⟨1, .objNil⟩ [] 0 0 initState (.str "boom")
      initState false rfl

/-! ## Helper lemmas: timestamp keys never match data keys -/

theorem tsKeyDeep_not_deepEq (k : RVal) : deepEq (tsKeyDeep k) k = false := by
  rw [deepEq_false_iff]
  intro h
  have hsz := congrArg sizeOf h
  simp [tsKeyDeep] at hsz
  omega

theorem tsKeyShallow_not_svz (k : RVal) :
    sameValueZero (tsKeyShallow k) k = false := by
  rw [Bool.eq_false_iff]
  intro h
  rw [svz_true_iff] at h
  have hval : (tsKeyShallow k).val =
      JsVal.str (jsToString k.val ++ "__timestamp") := rfl
  rcases h with ⟨_, hv⟩ | ⟨hp, _, _⟩
  · rw [hval] at hv
    cases hk : k.val <;> rw [hk] at hv <;> simp [jsToString] at hv
    next s =>
      have hlen := congrArg String.length hv
      rw [String.length_append] at hlen
      have h11 : ("__timestamp" : String).length = 11 := rfl
      omega
  · rw [hval] at hp
    exact absurd hp (by simp [JsVal.isPrim])

/-- C5 (confirmed): with an expiration window configured, in both equality
modes: a lookup whose timestamp record is absent is treated as stale, a
recorded timestamp `t` is stale exactly when `now - t` strictly exceeds the
window (elapsed time equal to the window is still fresh), and a stale lookup
re-invokes the real computation and overwrites both the stored value and the
timestamp. -/
theorem expiration_policy (d : Nat) (now nowStore : Int)
    (store : List (RVal × RVal)) (k : RVal) (hd : 0 < d) :
    (aGet deepEq store (tsKeyDeep k) = none →
      isExpired deepEq (tsKeyDeep k) store d now = true) ∧
    (∀ r t, aGet deepEq store (tsKeyDeep k) = some ⟨r, .num t⟩ →
      (isExpired deepEq (tsKeyDeep k) store d now = true ↔ now - t > d)) ∧
    (aGet sameValueZero store (tsKeyShallow k) = none →
      isExpired sameValueZero (tsKeyShallow k) store d now = true) ∧
    (∀ r t, aGet sameValueZero store (tsKeyShallow k) = some ⟨r, .num t⟩ →
      (isExpired sameValueZero (tsKeyShallow k) store d now = true ↔
        now - t > d)) ∧
    (∀ sid self v reg w, NodupKeys deepEq store →
      isExpired deepEq (tsKeyDeep k) store d now = true →
      ((memoizedCall ⟨.noFn, d, none, true⟩ sid (fun _ _ => .ok v) self [k]
          now nowStore ⟨store, [], reg, w⟩).invoked = true ∧
        aGet deepEq (memoizedCall ⟨.noFn, d, none, true⟩ sid
          (fun _ _ => .ok v) self [k] now nowStore
          ⟨store, [], reg, w⟩).state.deepStore k = some v ∧
        aGet deepEq (memoizedCall ⟨.noFn, d, none, true⟩ sid
          (fun _ _ => .ok v) self [k] now nowStore
          ⟨store, [], reg, w⟩).state.deepStore (tsKeyDeep k) =
          some ⟨0, .num nowStore⟩)) ∧
    (∀ sid self v reg w,
      isExpired sameValueZero (tsKeyShallow k) store d now = true →
      ((memoizedCall ⟨.noFn, d, none, false⟩ sid (fun _ _ => .ok v) self [k]
          now nowStore ⟨[], store, reg, w⟩).invoked = true ∧
        aGet sameValueZero (memoizedCall ⟨.noFn, d, none, false⟩ sid
          (fun _ _ => .ok v) self [k] now nowStore
          ⟨[], store, reg, w⟩).state.shalStore k = some v ∧
        aGet sameValueZero (memoizedCall ⟨.noFn, d, none, false⟩ sid
          (fun _ _ => .ok v) self [k] now nowStore
          ⟨[], store, reg, w⟩).state.shalStore (tsKeyShallow k) =
          some ⟨0, .num nowStore⟩)) := by
  refine ⟨?_, ?_, ?_, ?_, ?_, ?_⟩
  · intro h
    rw [isExpired, if_pos hd, h]
  · intro r t h
    rw [isExpired, if_pos hd, h]
    simp
  · intro h
    rw [isExpired, if_pos hd, h]
  · intro r t h
    rw [isExpired, if_pos hd, h]
    simp
  · intro sid self v reg w hnd hexp
    have hcond : (aHas deepEq store k &&
        !(isExpired deepEq (tsKeyDeep k) store d now)) = false := by
      rw [hexp]
      simp
    have hbr : memoizedCall ⟨.noFn, d, none, true⟩ sid (fun _ _ => .ok v) self
        [k] now nowStore ⟨store, [], reg, w⟩ =
        (if aHas deepEq store k &&
            !(isExpired deepEq (tsKeyDeep k) store d now) then
          (⟨.ok ((aGet deepEq store k).getD ⟨0, .undef⟩),
            ⟨store, [], reg, w⟩, false⟩ : CallResult)
        else
          ⟨.ok v,
            ⟨(if d > 0 then
                dSet deepEq (dSet deepEq store k v) (tsKeyDeep k)
                  ⟨0, .num nowStore⟩
              else dSet deepEq store k v), [], reg, w⟩, true⟩) := rfl
    rw [hbr, if_neg (by rw [hcond]; simp), if_pos hd]
    refine ⟨rfl, ?_, ?_⟩
    · rw [aGet_dSet_other deepEq _ k (tsKeyDeep k) _ (deepEq_refl _)
        (deepEq_no_common (tsKeyDeep_not_deepEq k))]
      exact aGet_dSet_self store k v hnd
    · exact aGet_dSet_self _ (tsKeyDeep k) _ (nodup_dSet store k v hnd)
  · intro sid self v reg w hexp
    have hcond : (aHas sameValueZero store k &&
        !(isExpired sameValueZero (tsKeyShallow k) store d now)) = false := by
      rw [hexp]
      simp
    have hbr : memoizedCall ⟨.noFn, d, none, false⟩ sid (fun _ _ => .ok v)
        self [k] now nowStore ⟨[], store, reg, w⟩ =
        (if aHas sameValueZero store k &&
            !(isExpired sameValueZero (tsKeyShallow k) store d now) then
          (⟨.ok ((aGet sameValueZero store k).getD ⟨0, .undef⟩),
            ⟨[], store, reg, w⟩, false⟩ : CallResult)
        else
          ⟨.ok v,
            ⟨[], (if d > 0 then
                mSet sameValueZero (mSet sameValueZero store k v)
                  (tsKeyShallow k) ⟨0, .num nowStore⟩
              else mSet sameValueZero store k v), reg, w⟩, true⟩) := rfl
    rw [hbr, if_neg (by rw [hcond]; simp), if_pos hd]
    refine ⟨rfl, ?_, ?_⟩
    · rw [aGet_mSet_other sameValueZero _ k (tsKeyShallow k) _ (svz_refl _)
        (svz_no_common (tsKeyShallow_not_svz k))]
      exact aGet_mSet_self sameValueZero store k v (svz_refl k)
    · exact aGet_mSet_self sameValueZero _ (tsKeyShallow k) _ (svz_refl _)

/-- Witness for C5: concrete expiring member (window 1ms, lookup at t=5) with
a missing timestamp, a recorded stale timestamp, and the overwrite behaviour
in both modes. -/
theorem expiration_policy_witness :
    isExpired deepEq (tsKeyDeep ⟨0, .str "a"⟩) [] 1 5 = true ∧
    isExpired deepEq (tsKeyDeep ⟨0, .str "a"⟩)
      [(tsKeyDeep ⟨0, .str "a"⟩, ⟨0, .num 0⟩)] 1 5 = true ∧
    (memoizedCall ⟨.noFn, 1, none, true⟩ 0 (fun _ _ => .ok ⟨0, .num 7⟩)
      ⟨1, .objNil⟩ [⟨0, .str "a"⟩] 5 6 ⟨[], [], [], 0⟩).invoked = true ∧
    aGet deepEq (memoizedCall ⟨.noFn, 1, none, true⟩ 0
      (fun _ _ => .ok ⟨0, .num 7⟩) ⟨1, .objNil⟩ [⟨0, .str "a"⟩] 5 6
      ⟨[], [], [], 0⟩).state.deepStore ⟨0, .str "a"⟩ = some ⟨0, .num 7⟩ ∧
    (memoizedCall ⟨.noFn, 1, none, false⟩ 0 (fun _ _ => .ok ⟨0, .num 7⟩)
      ⟨1, .objNil⟩ [⟨0, .str "a"⟩] 5 6 ⟨[], [], [], 0⟩).invoked = true := by
  have h1 := (expiration_policy 1 5 6 [] ⟨0, .str "a"⟩ (by decide)).1 rfl
  have h2 := ((expiration_policy 1 5 6
    [(tsKeyDeep ⟨0, .str "a"⟩, ⟨0, .num 0⟩)] ⟨0, .str "a"⟩ (by decide)).2.1
    0 0 rfl).mpr (by decide)
  have h5 := (expiration_policy 1 5 6 [] ⟨0, .str "a"⟩ (by decide)).2.2.2.2.1
    0 ⟨1, .objNil⟩ ⟨0, .num 7⟩ [] 0 (by simp [NodupKeys]) h1
  have h3 := (expiration_policy 1 5 6 [] ⟨0, .str "a"⟩ (by decide)).2.2.1 rfl
  have h6 := (expiration_policy 1 5 6 [] ⟨0, .str "a"⟩ (by decide)).2.2.2.2.2
    0 ⟨1, .objNil⟩ ⟨0, .num 7⟩ [] 0 h3
  exact ⟨h1, h2, h5.1, h5.2.1, h6.1⟩

/-- C8 (confirmed): in deep-equality mode, two calls with structurally-equal
but reference-distinct argument values collapse to one cache entry and one
invocation of the underlying logic (the second call returns the value stored
by the first), while a call with a structurally different argument value
invokes the underlying logic again. -/
theorem deep_structural_collapse (v v' : JsVal) (r1 r2 r3 sid w : Nat)
    (self : RVal) (f : RVal → List RVal → RVal) (n1 n2 n3 n4 n5 n6 : Int)
    (reg : Registry) (hne : v ≠ v') :
    (memoizedCall ⟨.noFn, 0, none, true⟩ sid (fun s a => .ok (f s a)) self
        [⟨r1, v⟩] n1 n2 ⟨[], [], reg, w⟩).invoked = true ∧
    (memoizedCall ⟨.noFn, 0, none, true⟩ sid (fun s a => .ok (f s a)) self
        [⟨r1, v⟩] n1 n2 ⟨[], [], reg, w⟩).state.deepStore.length = 1 ∧
    (memoizedCall ⟨.noFn, 0, none, true⟩ sid (fun s a => .ok (f s a)) self
        [⟨r2, v⟩] n3 n4
        (memoizedCall ⟨.noFn, 0, none, true⟩ sid (fun s a => .ok (f s a)) self
          [⟨r1, v⟩] n1 n2 ⟨[], [], reg, w⟩).state).invoked = false ∧
    (memoizedCall ⟨.noFn, 0, none, true⟩ sid (fun s a => .ok (f s a)) self
        [⟨r2, v⟩] n3 n4
        (memoizedCall ⟨.noFn, 0, none, true⟩ sid (fun s a => .ok (f s a)) self
          [⟨r1, v⟩] n1 n2 ⟨[], [], reg, w⟩).state).ret =
      .ok (f self [⟨r1, v⟩]) ∧
    (memoizedCall ⟨.noFn, 0, none, true⟩ sid (fun s a => .ok (f s a)) self
        [⟨r2, v⟩] n3 n4
        (memoizedCall ⟨.noFn, 0, none, true⟩ sid (fun s a => .ok (f s a)) self
          [⟨r1, v⟩] n1 n2 ⟨[], [], reg, w⟩).state).state.deepStore.length =
      1 ∧
    (memoizedCall ⟨.noFn, 0, none, true⟩ sid (fun s a => .ok (f s a)) self
        [⟨r3, v'⟩] n5 n6
        (memoizedCall ⟨.noFn, 0, none, true⟩ sid (fun s a => .ok (f s a)) self
          [⟨r2, v⟩] n3 n4
          (memoizedCall ⟨.noFn, 0, none, true⟩ sid (fun s a => .ok (f s a))
            self [⟨r1, v⟩] n1 n2
            ⟨[], [], reg, w⟩).state).state).invoked = true := by
  have hc1 : memoizedCall ⟨.noFn, 0, none, true⟩ sid (fun s a => .ok (f s a))
      self [⟨r1, v⟩] n1 n2 ⟨[], [], reg, w⟩ =
      ⟨.ok (f self [⟨r1, v⟩]),
        ⟨[(⟨r1, v⟩, f self [⟨r1, v⟩])], [], reg, w⟩, true⟩ := rfl
  have hhas : aHas deepEq [(⟨r1, v⟩, f self [⟨r1, v⟩])] ⟨r2, v⟩ = true := by
    simp [aHas, deepEq]
  have hget : aGet deepEq [(⟨r1, v⟩, f self [⟨r1, v⟩])] ⟨r2, v⟩ =
      some (f self [⟨r1, v⟩]) := by
    simp [aGet, List.find?, deepEq]
  have hcond : (aHas deepEq [(⟨r1, v⟩, f self [⟨r1, v⟩])] ⟨r2, v⟩ &&
      !(isExpired deepEq (tsKeyDeep ⟨r2, v⟩)
          [(⟨r1, v⟩, f self [⟨r1, v⟩])] 0 n3)) = true := by
    rw [hhas]
    rfl
  have hbr2 : memoizedCall ⟨.noFn, 0, none, true⟩ sid (fun s a => .ok (f s a))
      self [⟨r2, v⟩] n3 n4 ⟨[(⟨r1, v⟩, f self [⟨r1, v⟩])], [], reg, w⟩ =
      (if aHas deepEq [(⟨r1, v⟩, f self [⟨r1, v⟩])] ⟨r2, v⟩ &&
          !(isExpired deepEq (tsKeyDeep ⟨r2, v⟩)
              [(⟨r1, v⟩, f self [⟨r1, v⟩])] 0 n3) then
        (⟨.ok ((aGet deepEq [(⟨r1, v⟩, f self [⟨r1, v⟩])] ⟨r2, v⟩).getD
            ⟨0, .undef⟩),
          ⟨[(⟨r1, v⟩, f self [⟨r1, v⟩])], [], reg, w⟩, false⟩ : CallResult)
      else
        ⟨.ok (f self [⟨r2, v⟩]),
          ⟨dSet deepEq [(⟨r1, v⟩, f self [⟨r1, v⟩])] ⟨r2, v⟩
              (f self [⟨r2, v⟩]), [], reg, w⟩, true⟩) := rfl
  have hc2 : memoizedCall ⟨.noFn, 0, none, true⟩ sid (fun s a => .ok (f s a))
      self [⟨r2, v⟩] n3 n4 ⟨[(⟨r1, v⟩, f self [⟨r1, v⟩])], [], reg, w⟩ =
      ⟨.ok (f self [⟨r1, v⟩]),
        ⟨[(⟨r1, v⟩, f self [⟨r1, v⟩])], [], reg, w⟩, false⟩ := by
    rw [hbr2, if_pos hcond, hget]
    rfl
  have hnothas : aHas deepEq [(⟨r1, v⟩, f self [⟨r1, v⟩])] ⟨r3, v'⟩ =
      false := by
    simp [aHas, deepEq, hne]
  have hcond3 : (aHas deepEq [(⟨r1, v⟩, f self [⟨r1, v⟩])] ⟨r3, v'⟩ &&
      !(isExpired deepEq (tsKeyDeep ⟨r3, v'⟩)
          [(⟨r1, v⟩, f self [⟨r1, v⟩])] 0 n5)) = false := by
    rw [hnothas]
    rfl
  have hbr3 : memoizedCall ⟨.noFn, 0, none, true⟩ sid (fun s a => .ok (f s a))
      self [⟨r3, v'⟩] n5 n6 ⟨[(⟨r1, v⟩, f self [⟨r1, v⟩])], [], reg, w⟩ =
      (if aHas deepEq [(⟨r1, v⟩, f self [⟨r1, v⟩])] ⟨r3, v'⟩ &&
          !(isExpired deepEq (tsKeyDeep ⟨r3, v'⟩)
              [(⟨r1, v⟩, f self [⟨r1, v⟩])] 0 n5) then
        (⟨.ok ((aGet deepEq [(⟨r1, v⟩, f self [⟨r1, v⟩])] ⟨r3, v'⟩).getD
            ⟨0, .undef⟩),
          ⟨[(⟨r1, v⟩, f self [⟨r1, v⟩])], [], reg, w⟩, false⟩ : CallResult)
      else
        ⟨.ok (f self [⟨r3, v'⟩]),
          ⟨dSet deepEq [(⟨r1, v⟩, f self [⟨r1, v⟩])] ⟨r3, v'⟩
              (f self [⟨r3, v'⟩]), [], reg, w⟩, true⟩) := rfl
  have hc3 : memoizedCall ⟨.noFn, 0, none, true⟩ sid (fun s a => .ok (f s a))
      self [⟨r3, v'⟩] n5 n6 ⟨[(⟨r1, v⟩, f self [⟨r1, v⟩])], [], reg, w⟩ =
      ⟨.ok (f self [⟨r3, v'⟩]),
        ⟨dSet deepEq [(⟨r1, v⟩, f self [⟨r1, v⟩])] ⟨r3, v'⟩
            (f self [⟨r3, v'⟩]), [], reg, w⟩, true⟩ := by
    rw [hbr3, if_neg (by simp [hcond3])]
  rw [hc1, hc2, hc3]
  exact ⟨rfl, rfl, rfl, rfl, rfl, rfl⟩

/-- Witness for C8: concrete structurally-equal keys `⟨1,"x"⟩`/`⟨2,"x"⟩` and a
structurally different key `⟨3,"y"⟩`. -/
theorem deep_structural_collapse_witness :
    (memoizedCall ⟨.noFn, 0, none, true⟩ 0
        (fun _ _ => .ok ⟨0, .num 3⟩) ⟨9, .objNil⟩
        [⟨2, .str "x"⟩] 0 0
        (memoizedCall ⟨.noFn, 0, none, true⟩ 0
          (fun _ _ => .ok ⟨0, .num 3⟩) ⟨9, .objNil⟩
          [⟨1, .str "x"⟩] 0 0 ⟨[], [], [], 0⟩).state).invoked = false ∧
    (memoizedCall ⟨.noFn, 0, none, true⟩ 0
        (fun _ _ => .ok ⟨0, .num 3⟩) ⟨9, .objNil⟩
        [⟨3, .str "y"⟩] 0 0
        (memoizedCall ⟨.noFn, 0, none, true⟩ 0
          (fun _ _ => .ok ⟨0, .num 3⟩) ⟨9, .objNil⟩
          [⟨2, .str "x"⟩] 0 0
          (memoizedCall ⟨.noFn, 0, none, true⟩ 0
            (fun _ _ => .ok ⟨0, .num 3⟩) ⟨9, .objNil⟩
            [⟨1, .str "x"⟩] 0 0
            ⟨[], [], [], 0⟩).state).state).invoked = true := by
  have h := deep_structural_collapse (.str "x") (.str "y") 1 2 3 0 0
    ⟨9, .objNil⟩ (fun _ _ => ⟨0, .num 3⟩) 0 0 0 0 0 0 [] (by decide)
  exact ⟨h.2.2.1, h.2.2.2.2.2⟩

/-! ## Helper lemmas: hit/miss shapes of single calls -/

theorem deepCall_miss_empty (sid w : Nat)
    (orig : RVal → List RVal → Except JsVal RVal) (self : RVal)
    (args : List RVal) (n1 n2 : Int) (reg : Registry) (key : RVal)
    (hkey : deriveDeepKey .noFn self args = .ok key) :
    memoizedCall ⟨.noFn, 0, none, true⟩ sid orig self args n1 n2
      ⟨[], [], reg, w⟩ =
      match orig self args with
      | .error e => ⟨.error e, ⟨[], [], reg, w⟩, true⟩
      | .ok v => ⟨.ok v, ⟨[(key, v)], [], reg, w⟩, true⟩ := by
  have hdisp : memoizedCall ⟨.noFn, 0, none, true⟩ sid orig self args n1 n2
      ⟨[], [], reg, w⟩ =
      deepBranch ⟨.noFn, 0, none, true⟩ orig self args n1 n2
        ⟨[], [], reg, w⟩ := rfl
  rw [hdisp]
  simp only [deepBranch, hkey]
  rcases ho : orig self args with e | v <;>
    simp [ho, aHas, isExpired, dSet, removeFirst]

theorem deepCall_hit (sid w : Nat)
    (orig : RVal → List RVal → Except JsVal RVal) (self : RVal)
    (args : List RVal) (n3 n4 : Int) (reg : Registry) (key val : RVal)
    (hkey : deriveDeepKey .noFn self args = .ok key) :
    memoizedCall ⟨.noFn, 0, none, true⟩ sid orig self args n3 n4
      ⟨[(key, val)], [], reg, w⟩ =
      ⟨.ok val, ⟨[(key, val)], [], reg, w⟩, false⟩ := by
  have hdisp : memoizedCall ⟨.noFn, 0, none, true⟩ sid orig self args n3 n4
      ⟨[(key, val)], [], reg, w⟩ =
      deepBranch ⟨.noFn, 0, none, true⟩ orig self args n3 n4
        ⟨[(key, val)], [], reg, w⟩ := rfl
  rw [hdisp]
  simp only [deepBranch, hkey]
  simp [aHas, aGet, List.find?, deepEq_refl, isExpired]

theorem shallowSelfCall_hit (sid w : Nat)
    (orig : RVal → List RVal → Except JsVal RVal) (self : RVal)
    (n3 n4 : Int) (reg : Registry) (val : RVal) :
    memoizedCall ⟨.noFn, 0, none, false⟩ sid orig self [] n3 n4
      ⟨[], [(self, val)], reg, w⟩ =
      ⟨.ok val, ⟨[], [(self, val)], reg, w⟩, false⟩ := by
  have hdisp : memoizedCall ⟨.noFn, 0, none, false⟩ sid orig self [] n3 n4
      ⟨[], [(self, val)], reg, w⟩ =
      shallowSelfBranch orig self [] ⟨[], [(self, val)], reg, w⟩ := rfl
  rw [hdisp]
  simp [shallowSelfBranch, aHas, aGet, List.find?, svz_refl]

theorem shallowCall_cons (sid w : Nat)
    (orig : RVal → List RVal → Except JsVal RVal) (self a : RVal)
    (rest : List RVal) (n1 n2 : Int) (reg : Registry)
    (store : List (RVal × RVal)) :
    memoizedCall ⟨.noFn, 0, none, false⟩ sid orig self (a :: rest) n1 n2
      ⟨[], store, reg, w⟩ =
      shallowKeyedBranch ⟨.noFn, 0, none, false⟩ orig self (a :: rest) n1 n2
        ⟨[], store, reg, w⟩ := by
  simp [memoizedCall, afterRegistration, HashCfg.truthy]

theorem shallowKeyedCall_cons_hit (w : Nat)
    (orig : RVal → List RVal → Except JsVal RVal) (self a : RVal)
    (rest : List RVal) (n3 n4 : Int) (reg : Registry) (val : RVal) :
    shallowKeyedBranch ⟨.noFn, 0, none, false⟩ orig self (a :: rest) n3 n4
      ⟨[], [(a, val)], reg, w⟩ =
      ⟨.ok val, ⟨[], [(a, val)], reg, w⟩, false⟩ := by
  simp [shallowKeyedBranch, deriveShallowKeyedKey, aHas, aGet, List.find?,
    svz_refl, isExpired]

/-- C10 (confirmed): a computed result of `undefined` is cached like any other
value in both equality modes: the lookup tests key presence, so a second call
with the same arguments returns the stored `undefined` without re-invoking the
underlying logic. -/
theorem undefined_result_cached (self : RVal) (args : List RVal)
    (sid w : Nat) (reg : Registry) (n1 n2 n3 n4 : Int) :
    (memoizedCall ⟨.noFn, 0, none, true⟩ sid (fun _ _ => .ok ⟨0, .undef⟩) self
        args n1 n2 ⟨[], [], reg, w⟩).invoked = true ∧
    (memoizedCall ⟨.noFn, 0, none, true⟩ sid (fun _ _ => .ok ⟨0, .undef⟩) self
        args n1 n2 ⟨[], [], reg, w⟩).ret = .ok ⟨0, .undef⟩ ∧
    (memoizedCall ⟨.noFn, 0, none, true⟩ sid (fun _ _ => .ok ⟨0, .undef⟩) self
        args n3 n4
        (memoizedCall ⟨.noFn, 0, none, true⟩ sid (fun _ _ => .ok ⟨0, .undef⟩)
          self args n1 n2 ⟨[], [], reg, w⟩).state).invoked = false ∧
    (memoizedCall ⟨.noFn, 0, none, true⟩ sid (fun _ _ => .ok ⟨0, .undef⟩) self
        args n3 n4
        (memoizedCall ⟨.noFn, 0, none, true⟩ sid (fun _ _ => .ok ⟨0, .undef⟩)
          self args n1 n2 ⟨[], [], reg, w⟩).state).ret = .ok ⟨0, .undef⟩ ∧
    (memoizedCall ⟨.noFn, 0, none, false⟩ sid (fun _ _ => .ok ⟨0, .undef⟩)
        self args n1 n2 ⟨[], [], reg, w⟩).invoked = true ∧
    (memoizedCall ⟨.noFn, 0, none, false⟩ sid (fun _ _ => .ok ⟨0, .undef⟩)
        self args n1 n2 ⟨[], [], reg, w⟩).ret = .ok ⟨0, .undef⟩ ∧
    (memoizedCall ⟨.noFn, 0, none, false⟩ sid (fun _ _ => .ok ⟨0, .undef⟩)
        self args n3 n4
        (memoizedCall ⟨.noFn, 0, none, false⟩ sid (fun _ _ => .ok ⟨0, .undef⟩)
          self args n1 n2 ⟨[], [], reg, w⟩).state).invoked = false ∧
    (memoizedCall ⟨.noFn, 0, none, false⟩ sid (fun _ _ => .ok ⟨0, .undef⟩)
        self args n3 n4
        (memoizedCall ⟨.noFn, 0, none, false⟩ sid (fun _ _ => .ok ⟨0, .undef⟩)
          self args n1 n2 ⟨[], [], reg, w⟩).state).ret = .ok ⟨0, .undef⟩ := by
  obtain ⟨k, hk⟩ : ∃ k, deriveDeepKey .noFn self args = .ok k := by
    rcases args with _ | ⟨a, _ | ⟨b, t⟩⟩ <;> exact ⟨_, rfl⟩
  have hc1 : memoizedCall ⟨.noFn, 0, none, true⟩ sid
      (fun _ _ => .ok ⟨0, .undef⟩) self args n1 n2 ⟨[], [], reg, w⟩ =
      ⟨.ok ⟨0, .undef⟩, ⟨[(k, ⟨0, .undef⟩)], [], reg, w⟩, true⟩ :=
    deepCall_miss_empty sid w (fun _ _ => .ok ⟨0, .undef⟩) self args n1 n2 reg
      k hk
  have hc2 := deepCall_hit sid w (fun _ _ => .ok ⟨0, .undef⟩) self args n3 n4
    reg k ⟨0, .undef⟩ hk
  refine ⟨?_, ?_, ?_, ?_, ?_⟩
  · rw [hc1]
  · rw [hc1]
  · rw [hc1, hc2]
  · rw [hc1, hc2]
  · rcases args with _ | ⟨a, rest⟩
    · have hs1 : memoizedCall ⟨.noFn, 0, none, false⟩ sid
          (fun _ _ => .ok ⟨0, .undef⟩) self [] n1 n2 ⟨[], [], reg, w⟩ =
          ⟨.ok ⟨0, .undef⟩, ⟨[], [(self, ⟨0, .undef⟩)], reg, w⟩, true⟩ := rfl
      have hs2 := shallowSelfCall_hit sid w (fun _ _ => .ok ⟨0, .undef⟩) self
        n3 n4 reg ⟨0, .undef⟩
      rw [hs1, hs2]
      exact ⟨rfl, rfl, rfl, rfl⟩
    · have hs1 : memoizedCall ⟨.noFn, 0, none, false⟩ sid
          (fun _ _ => .ok ⟨0, .undef⟩) self (a :: rest) n1 n2
          ⟨[], [], reg, w⟩ =
          ⟨.ok ⟨0, .undef⟩, ⟨[], [(a, ⟨0, .undef⟩)], reg, w⟩, true⟩ :=
        (shallowCall_cons sid w (fun _ _ => .ok ⟨0, .undef⟩) self a rest n1 n2
          reg []).trans rfl
      have hs2 : memoizedCall ⟨.noFn, 0, none, false⟩ sid
          (fun _ _ => .ok ⟨0, .undef⟩) self (a :: rest) n3 n4
          ⟨[], [(a, ⟨0, .undef⟩)], reg, w⟩ =
          ⟨.ok ⟨0, .undef⟩, ⟨[], [(a, ⟨0, .undef⟩)], reg, w⟩, false⟩ :=
        (shallowCall_cons sid w (fun _ _ => .ok ⟨0, .undef⟩) self a rest n3 n4
          reg [(a, ⟨0, .undef⟩)]).trans
          (shallowKeyedCall_cons_hit w (fun _ _ => .ok ⟨0, .undef⟩) self a
            rest n3 n4 reg ⟨0, .undef⟩)
      rw [hs1, hs2]
      exact ⟨rfl, rfl, rfl, rfl⟩
